import Mathlib

/-!
Verification of the VocalFlowAI frontend audio pipeline.

The definitions below are shallow embeddings of the JavaScript source in
`src/Frontend/src/components/useVoiceStream.js`, `useVoiceStream.jsx` and the
talk-page component in `src/unnamed/part_003`.  Float samples are modelled as
rationals (JavaScript performs its arithmetic in IEEE doubles; every operation
appearing in the embedded code — clamping, scaling by powers of two and by
`0x7fff`, truncation on `Int16Array` stores — is exact on the values that
occur, as noted at each definition).  Int16 samples are modelled as integers
together with the explicit wrap `toInt16`.

The backend confidence scorer and smoother (`app/audio/ml/confidence.py`) are
not part of the source tree here; those definitions are modelled from the
specification and say so in their doc comments.
-/

namespace VocalFlow

/-- Source constant `SAMPLE_RATE = 16000` from `useVoiceStream.js`. -/
def SAMPLE_RATE : ℕ := 16000

/-- Source constant `FRAME_SAMPLES = 320` (20 ms at 16 kHz) from `useVoiceStream.js`. -/
def FRAME_SAMPLES : ℕ := 320

/-- Fuel-indexed form of the `while (accum.length >= FRAME_SAMPLES)` loop of
`processor.onaudioprocess` in `useVoiceStream.js` (lines 194–198): repeatedly
splice the first `FRAME_SAMPLES` samples off the accumulator as one frame.
The fuel only bounds the number of iterations; `emitFrames` supplies enough
fuel for the loop to run to completion. -/
def emitFramesAux : ℕ → List ℚ → List (List ℚ) × List ℚ
  | 0, accum => ([], accum)
  | fuel + 1, accum =>
    if FRAME_SAMPLES ≤ accum.length then
      let res := emitFramesAux fuel (accum.drop FRAME_SAMPLES)
      (accum.take FRAME_SAMPLES :: res.1, res.2)
    else ([], accum)

/-- Run the frame-splicing loop to completion on an accumulator: the loop
consumes at least one sample per iteration, so `accum.length` iterations of
fuel always suffice. -/
def emitFrames (accum : List ℚ) : List (List ℚ) × List ℚ :=
  emitFramesAux accum.length accum

/-- One `onaudioprocess` callback: append the input samples to the
accumulator (`for (let i = 0; i < input.length; i++) accum.push(input[i])`),
then splice off complete frames.  The first component collects the frames
sent so far, in order. -/
def pushChunk (state : List (List ℚ) × List ℚ) (input : List ℚ) :
    List (List ℚ) × List ℚ :=
  let res := emitFrames (state.2 ++ input)
  (state.1 ++ res.1, res.2)

/-- Feed a whole sequence of input chunks through the accumulator, starting
from the empty accumulator (`accumRef.current = []`). -/
def processChunks (chunks : List (List ℚ)) : List (List ℚ) × List ℚ :=
  chunks.foldl pushChunk ([], [])

lemma emitFramesAux_frame_length (fuel : ℕ) :
    ∀ accum : List ℚ, ∀ f ∈ (emitFramesAux fuel accum).1, f.length = FRAME_SAMPLES := by
  induction fuel with
  | zero => intro accum f hf; simp [emitFramesAux] at hf
  | succ n ih =>
    intro accum f hf
    by_cases h : FRAME_SAMPLES ≤ accum.length
    · simp only [emitFramesAux, if_pos h, List.mem_cons] at hf
      rcases hf with hf | hf
      · subst hf; exact List.length_take_of_le h
      · exact ih _ f hf
    · simp [emitFramesAux, if_neg h] at hf

lemma emitFramesAux_leftover (fuel : ℕ) :
    ∀ accum : List ℚ, accum.length ≤ fuel + FRAME_SAMPLES - 1 →
      (emitFramesAux fuel accum).2.length < FRAME_SAMPLES := by
  induction fuel with
  | zero =>
    intro accum h
    simp only [emitFramesAux]
    have : 0 < FRAME_SAMPLES := by decide
    omega
  | succ n ih =>
    intro accum h
    by_cases hc : FRAME_SAMPLES ≤ accum.length
    · simp only [emitFramesAux, if_pos hc]
      apply ih
      have hd := List.length_drop FRAME_SAMPLES accum
      have hF : FRAME_SAMPLES = 320 := rfl
      omega
    · simp only [emitFramesAux, if_neg hc]
      omega

lemma emitFramesAux_join (fuel : ℕ) :
    ∀ accum : List ℚ,
      (emitFramesAux fuel accum).1.flatten ++ (emitFramesAux fuel accum).2 = accum := by
  induction fuel with
  | zero => intro accum; simp [emitFramesAux]
  | succ n ih =>
    intro accum
    by_cases hc : FRAME_SAMPLES ≤ accum.length
    · simp only [emitFramesAux, if_pos hc, List.flatten_cons, List.append_assoc]
      rw [ih]
      exact List.take_append_drop _ _
    · simp [emitFramesAux, if_neg hc]

lemma emitFrames_frame_length (accum : List ℚ) :
    ∀ f ∈ (emitFrames accum).1, f.length = FRAME_SAMPLES :=
  emitFramesAux_frame_length _ accum

lemma emitFrames_leftover (accum : List ℚ) :
    (emitFrames accum).2.length < FRAME_SAMPLES := by
  apply emitFramesAux_leftover
  have : 0 < FRAME_SAMPLES := by decide
  omega

lemma emitFrames_join (accum : List ℚ) :
    (emitFrames accum).1.flatten ++ (emitFrames accum).2 = accum :=
  emitFramesAux_join _ accum

lemma processChunks_invariant (chunks : List (List ℚ)) :
    ∀ frames : List (List ℚ), ∀ accum : List ℚ,
      (∀ f ∈ frames, f.length = FRAME_SAMPLES) → accum.length < FRAME_SAMPLES →
      (∀ f ∈ (chunks.foldl pushChunk (frames, accum)).1, f.length = FRAME_SAMPLES) ∧
      (chunks.foldl pushChunk (frames, accum)).2.length < FRAME_SAMPLES := by
  induction chunks with
  | nil => intro frames accum hf ha; exact ⟨hf, ha⟩
  | cons c cs ih =>
    intro frames accum hf ha
    simp only [List.foldl_cons]
    apply ih
    · intro f hfm
      rcases List.mem_append.mp hfm with hl | hr
      · exact hf f hl
      · exact emitFrames_frame_length _ f hr
    · exact emitFrames_leftover _

lemma processChunks_join (chunks : List (List ℚ)) :
    ∀ frames : List (List ℚ), ∀ accum : List ℚ,
      (chunks.foldl pushChunk (frames, accum)).1.flatten ++
        (chunks.foldl pushChunk (frames, accum)).2 =
      frames.flatten ++ accum ++ chunks.flatten := by
  induction chunks with
  | nil => intro frames accum; simp
  | cons c cs ih =>
    intro frames accum
    simp only [List.foldl_cons, List.flatten_cons]
    rw [ih]
    simp only [pushChunk, List.flatten_append, List.append_assoc]
    congr 1
    rw [← List.append_assoc, emitFrames_join, List.append_assoc]

/-- Truncation toward zero, the fractional-part discarding step of
JavaScript's ToInt16 conversion applied on every `Int16Array` element store. -/
def jsTrunc (q : ℚ) : ℤ := if q < 0 then ⌈q⌉ else ⌊q⌋

/-- Wrap of an integer into the signed 16-bit range, the modular step of
JavaScript's ToInt16 conversion applied on every `Int16Array` element store. -/
def toInt16 (n : ℤ) : ℤ := (n + 32768) % 65536 - 32768

/-- One sample of `floatToInt16` from `useVoiceStream.js` (lines 7–14):
`s = Math.max(-1, Math.min(1, x)); out[i] = s < 0 ? s * 0x8000 : s * 0x7fff`.
The store into `out[i]` performs the ToInt16 conversion `toInt16 ∘ jsTrunc`.
All arithmetic here is exact in doubles, so the rational model is faithful. -/
def floatToInt16Sample (x : ℚ) : ℤ :=
  toInt16 (jsTrunc (if max (-1) (min 1 x) < 0
    then max (-1) (min 1 x) * 32768 else max (-1) (min 1 x) * 32767))

/-- `floatToInt16` from `useVoiceStream.js`: elementwise conversion of a
float sample buffer to int16. -/
def floatToInt16 (float32 : List ℚ) : List ℤ :=
  float32.map floatToInt16Sample

/-- One sample of `int16ToFloat32` from `useVoiceStream.js` (lines 16–20):
`out[i] = int16[i] / 0x8000`.  The quotient `n / 2¹⁵` for `n` in the int16
range is exactly representable as a float32, so the rational model is
faithful. -/
def int16ToFloat32Sample (n : ℤ) : ℚ := (n : ℚ) / 32768

/-- `int16ToFloat32` from `useVoiceStream.js`: elementwise conversion of an
int16 sample buffer to float. -/
def int16ToFloat32 (int16 : List ℤ) : List ℚ :=
  int16.map int16ToFloat32Sample

lemma toInt16_eq_self {n : ℤ} (h1 : -32768 ≤ n) (h2 : n ≤ 32767) : toInt16 n = n := by
  unfold toInt16
  rw [Int.emod_eq_of_lt (by omega) (by omega)]
  omega

lemma jsTrunc_nonneg {q : ℚ} (h : 0 ≤ q) : 0 ≤ jsTrunc q := by
  unfold jsTrunc
  rw [if_neg (not_lt.mpr h)]
  exact Int.floor_nonneg.mpr h

lemma floatToInt16Sample_bounds (x : ℚ) :
    -32768 ≤ floatToInt16Sample x ∧ floatToInt16Sample x ≤ 32767 := by
  unfold floatToInt16Sample
  set s := max (-1 : ℚ) (min 1 x) with hs
  have hlo : -1 ≤ s := le_max_left _ _
  have hhi : s ≤ 1 := max_le (by norm_num) (min_le_left _ _)
  by_cases hneg : s < 0
  · rw [if_pos hneg]
    have hb1 : (-32768 : ℚ) ≤ s * 32768 := by nlinarith
    have hb2 : s * 32768 ≤ 0 := by nlinarith
    have ht1 : (-32768 : ℤ) ≤ jsTrunc (s * 32768) := by
      unfold jsTrunc
      split
      · have hc := Int.le_ceil (s * 32768)
        have : (-32768 : ℚ) ≤ (⌈s * 32768⌉ : ℚ) := le_trans hb1 hc
        exact_mod_cast this
      · exact Int.le_floor.mpr (by push_cast; linarith)
    have ht2 : jsTrunc (s * 32768) ≤ 0 := by
      unfold jsTrunc
      split
      · exact Int.ceil_le.mpr (by push_cast; linarith)
      · have hc := Int.floor_le (s * 32768)
        have : (⌊s * 32768⌋ : ℚ) ≤ 0 := le_trans hc hb2
        exact_mod_cast this
    rw [toInt16_eq_self ht1 (by omega)]
    omega
  · rw [if_neg hneg]
    push_neg at hneg
    have hb1 : (0 : ℚ) ≤ s * 32767 := by nlinarith
    have hb2 : s * 32767 ≤ 32767 := by nlinarith
    have ht1 : (0 : ℤ) ≤ jsTrunc (s * 32767) := jsTrunc_nonneg hb1
    have ht2 : jsTrunc (s * 32767) ≤ 32767 := by
      unfold jsTrunc
      rw [if_neg (not_lt.mpr hb1)]
      calc ⌊s * 32767⌋ ≤ ⌊(32767 : ℚ)⌋ := Int.floor_le_floor hb2
        _ = 32767 := by norm_num
    rw [toInt16_eq_self (by omega) ht2]
    omega

lemma roundTripSample (x : ℤ) (h1 : -32768 ≤ x) (h2 : x ≤ 32767) :
    floatToInt16Sample (int16ToFloat32Sample x) = if 0 < x then x - 1 else x := by
  unfold floatToInt16Sample int16ToFloat32Sample
  have h1q : (-32768 : ℚ) ≤ (x : ℚ) := by exact_mod_cast h1
  have h2q : (x : ℚ) ≤ 32767 := by exact_mod_cast h2
  have hq1 : (-1 : ℚ) ≤ (x : ℚ) / 32768 := by
    rw [le_div_iff₀ (by norm_num : (0:ℚ) < 32768)]
    linarith
  have hq2 : (x : ℚ) / 32768 ≤ 1 := by
    rw [div_le_iff₀ (by norm_num : (0:ℚ) < 32768)]
    linarith
  rw [min_eq_right hq2, max_eq_right hq1]
  by_cases hneg : (x : ℚ) / 32768 < 0
  · have hxneg : x < 0 := by
      by_contra hc
      push_neg at hc
      exact absurd hneg (not_lt.mpr (div_nonneg (by exact_mod_cast hc) (by norm_num)))
    rw [if_pos hneg, div_mul_cancel₀ _ (by norm_num : (32768 : ℚ) ≠ 0)]
    unfold jsTrunc
    rw [if_pos (by exact_mod_cast hxneg : (x : ℚ) < 0), Int.ceil_intCast,
      toInt16_eq_self h1 (by omega), if_neg (by omega)]
  · rw [if_neg hneg]
    push_neg at hneg
    have hxpos : 0 ≤ x := by
      by_contra hc
      push_neg at hc
      have : (x : ℚ) / 32768 < 0 :=
        div_neg_of_neg_of_pos (by exact_mod_cast hc) (by norm_num)
      exact absurd hneg (not_le.mpr this)
    rcases eq_or_lt_of_le hxpos with hz | hpos
    · rw [← hz]
      norm_num [jsTrunc, toInt16]
    · have hxq : (0 : ℚ) < (x : ℚ) := by exact_mod_cast hpos
      have hfl : ⌊(x : ℚ) / 32768 * 32767⌋ = x - 1 := by
        rw [Int.floor_eq_iff]
        constructor
        · push_cast
          rw [div_mul_eq_mul_div, le_div_iff₀ (by norm_num : (0:ℚ) < 32768)]
          nlinarith
        · push_cast
          rw [div_mul_eq_mul_div, div_lt_iff₀ (by norm_num : (0:ℚ) < 32768)]
          nlinarith
      unfold jsTrunc
      rw [if_neg (not_lt.mpr (by positivity)), hfl,
        toInt16_eq_self (by omega) (by omega), if_pos hpos]

/-- Maximum number of chunks scheduled per `scheduleLoop` pass
(`while (... && scheduled < 10)` in `useVoiceStream.js` line 105). -/
def SCHEDULE_BATCH : ℕ := 10

/-- The dequeue loop of `scheduleLoop` in `useVoiceStream.js` (lines 99–138):
`while (recvQueueRef.current.length > 0 && scheduled < 10)` shift the next
chunk; an empty chunk is skipped (`continue`, without counting it as
scheduled); a non-empty chunk is scheduled for playback and counted.  Returns
the chunks scheduled by this pass, in order, and the remaining queue. -/
def scheduleLoopAux : List (List ℤ) → ℕ → List (List ℤ) × List (List ℤ)
  | [], _ => ([], [])
  | pcm :: rest, scheduled =>
    if SCHEDULE_BATCH ≤ scheduled then ([], pcm :: rest)
    else if pcm.isEmpty then scheduleLoopAux rest scheduled
    else
      let res := scheduleLoopAux rest (scheduled + 1)
      (pcm :: res.1, res.2)

/-- One pass of `scheduleLoop`, starting from `scheduled = 0`. -/
def scheduleLoop (queue : List (List ℤ)) : List (List ℤ) × List (List ℤ) :=
  scheduleLoopAux queue 0

/-- Fuel-indexed iteration of `scheduleLoop` passes (the `setTimeout`
self-rescheduling of the loop) until the receive queue is empty, collecting
the chunks scheduled for playback in order. -/
def drainAux : ℕ → List (List ℤ) → List (List ℤ)
  | 0, _ => []
  | _ + 1, [] => []
  | fuel + 1, q =>
    let res := scheduleLoop q
    res.1 ++ drainAux fuel res.2

/-- Run `scheduleLoop` passes until the queue is drained: each pass on a
non-empty queue removes at least its head, so `queue.length` passes always
suffice. -/
def drainQueue (queue : List (List ℤ)) : List (List ℤ) :=
  drainAux queue.length queue

lemma scheduleLoopAux_spec :
    ∀ (q : List (List ℤ)) (sched : ℕ),
      ∃ k, (scheduleLoopAux q sched).1 = (q.take k).filter (fun c => !c.isEmpty) ∧
        (scheduleLoopAux q sched).2 = q.drop k ∧
        (sched < SCHEDULE_BATCH → q ≠ [] → 1 ≤ k) := by
  intro q
  induction q with
  | nil =>
    intro sched
    exact ⟨0, by simp [scheduleLoopAux]⟩
  | cons pcm rest ih =>
    intro sched
    by_cases hs : SCHEDULE_BATCH ≤ sched
    · refine ⟨0, ?_, ?_, ?_⟩
      · simp [scheduleLoopAux, if_pos hs]
      · simp [scheduleLoopAux, if_pos hs]
      · intro h _
        exact absurd hs (not_le.mpr h)
    · by_cases he : pcm.isEmpty
      · obtain ⟨k, h1, h2, _⟩ := ih sched
        refine ⟨k + 1, ?_, ?_, fun _ _ => by omega⟩
        · simp only [scheduleLoopAux, if_neg hs, if_pos he, List.take_succ_cons,
            List.filter_cons, he]
          simpa using h1
        · simp only [scheduleLoopAux, if_neg hs, if_pos he, List.drop_succ_cons]
          exact h2
      · obtain ⟨k, h1, h2, _⟩ := ih (sched + 1)
        refine ⟨k + 1, ?_, ?_, fun _ _ => by omega⟩
        · simp only [scheduleLoopAux, if_neg hs, if_neg he, List.take_succ_cons,
            List.filter_cons, Bool.not_eq_true']
          rw [if_pos (by simpa using he)]
          simpa using h1
        · simp only [scheduleLoopAux, if_neg hs, if_neg he, List.drop_succ_cons]
          exact h2

lemma drainAux_spec :
    ∀ (fuel : ℕ) (q : List (List ℤ)), q.length ≤ fuel →
      drainAux fuel q = q.filter (fun c => !c.isEmpty) := by
  intro fuel
  induction fuel with
  | zero =>
    intro q hq
    rw [List.length_eq_zero.mp (Nat.le_zero.mp hq)]
    simp [drainAux]
  | succ n ih =>
    intro q hq
    match q with
    | [] => simp [drainAux]
    | pcm :: rest =>
      obtain ⟨k, h1, h2, hk⟩ := scheduleLoopAux_spec (pcm :: rest) 0
      have hk1 : 1 ≤ k := hk (by decide) (by simp)
      show (scheduleLoop (pcm :: rest)).1 ++ drainAux n (scheduleLoop (pcm :: rest)).2 =
        (pcm :: rest).filter (fun c => !c.isEmpty)
      rw [show scheduleLoop (pcm :: rest) = scheduleLoopAux (pcm :: rest) 0 from rfl,
        h1, h2, ih _ (by simp at hq ⊢; omega)]
      rw [← List.filter_append, List.take_append_drop]

/-- Shallow model of the mutable state of the `useVoiceStream` hook in
`useVoiceStream.js`: the five resource refs (WebSocket, AudioContext, media
stream, media-stream source, script processor — `none` models `null`), the
accumulator and receive-queue buffers, the playback bookkeeping, the manual
stop flag and the status string. -/
structure HookState where
  ws : Option ℕ
  ctx : Option ℕ
  stream : Option ℕ
  source : Option ℕ
  proc : Option ℕ
  accum : List ℚ
  recvQueue : List (List ℤ)
  nextPlayTime : ℚ
  isPlaying : Bool
  manualStop : Bool
  status : String

/-- `stop()` from `useVoiceStream.js` (lines 250–271): set the manual-stop
flag, close/disconnect the resources (external side effects), null out all
five resource refs, clear the playing flag, and set the status back to
`"idle"`.  The buffers are not touched by `stop`. -/
def stop (s : HookState) : HookState :=
  { s with
    manualStop := true
    ws := none
    proc := none
    source := none
    stream := none
    ctx := none
    isPlaying := false
    status := "idle" }

/-- Little-endian encoding of a 16-bit value, as written by
`DataView.setUint16(…, true)` (the value is reduced modulo 2¹⁶). -/
def u16le (n : ℕ) : List ℕ := [n % 256, n / 256 % 256]

/-- Little-endian encoding of a 32-bit value, as written by
`DataView.setUint32(…, true)` (the value is reduced modulo 2³²). -/
def u32le (n : ℕ) : List ℕ :=
  [n % 256, n / 256 % 256, n / 65536 % 256, n / 16777216 % 256]

/-- Little-endian encoding of a signed 16-bit sample, as written by
`DataView.setInt16(…, true)`: two's-complement wrap into two bytes. -/
def i16le (n : ℤ) : List ℕ := u16le (n % 65536).toNat

/-- Byte values of an ASCII tag, as written by `writeStr` in
`pcm16ToWavBlob` (`view.setUint8(offset + i, str.charCodeAt(i))`). -/
def asciiBytes (s : String) : List ℕ := s.data.map Char.toNat

/-- `pcm16ToWavBlob` from `useVoiceStream.js` (lines 33–68), as the byte
sequence of the produced blob: the writes fill offsets 0–43 contiguously
(RIFF chunk, fmt chunk, data chunk header) and then the samples
little-endian from offset 44, so the blob is the concatenation of the
fields in write order.  `bytesPerSample = 2`, `blockAlign = numChannels * 2`,
`byteRate = sampleRate * blockAlign`, `dataSize = pcm16.length * 2`. -/
def pcm16ToWavBlob (pcm16 : List ℤ) (sampleRate numChannels : ℕ) : List ℕ :=
  asciiBytes "RIFF" ++ u32le (36 + pcm16.length * 2) ++ asciiBytes "WAVE" ++
  asciiBytes "fmt " ++ u32le 16 ++ u16le 1 ++ u16le numChannels ++
  u32le sampleRate ++ u32le (sampleRate * (numChannels * 2)) ++
  u16le (numChannels * 2) ++ u16le 16 ++
  asciiBytes "data" ++ u32le (pcm16.length * 2) ++
  (pcm16.map i16le).flatten

lemma i16le_flatten_length (pcm16 : List ℤ) :
    ((pcm16.map i16le).flatten).length = 2 * pcm16.length := by
  induction pcm16 with
  | nil => simp
  | cons a l ih =>
    simp only [List.map_cons, List.flatten_cons, List.length_append, ih,
      List.length_cons, i16le, u16le, List.length_cons, List.length_nil]
    ring

/-- JavaScript `Math.round`: round half toward positive infinity. -/
def jsRound (q : ℚ) : ℤ := ⌊q + 1 / 2⌋

/-- Buffer index at which output sample `r` of `downsampleBuffer` starts:
`Math.round(r * ratio)` — the value held by `offsetBuffer` when the loop
iteration for `offsetResult = r` begins (`offsetBuffer` starts at `0`, which
equals `Math.round(0 * ratio)`, and is then always assigned
`Math.round((r) * ratio)`). -/
def segLo (rq : ℚ) (r : ℕ) : ℕ := (jsRound ((r : ℚ) * rq)).toNat

/-- Buffer index (exclusive) at which the segment of output sample `r` ends:
the inner `for` loop of `downsampleBuffer` runs while
`i < nextOffsetBuffer && i < buffer.length`. -/
def segHi (buffer : List ℚ) (rq : ℚ) (r : ℕ) : ℕ :=
  min (segLo rq (r + 1)) buffer.length

/-- Number of input samples in the segment of output sample `r`. -/
def segCnt (buffer : List ℚ) (rq : ℚ) (r : ℕ) : ℕ :=
  segHi buffer rq r - segLo rq r

/-- Sum of the input samples in the segment of output sample `r`
(the `accum` of the inner loop of `downsampleBuffer`). -/
def segSum (buffer : List ℚ) (rq : ℚ) (r : ℕ) : ℚ :=
  ((List.range' (segLo rq r) (segCnt buffer rq r)).map (fun i => buffer.getD i 0)).sum

/-- Arithmetic mean of the segment of input samples corresponding to output
sample `r`, and `0` when that segment is empty
(`result[offsetResult] = count ? accum / count : 0`). -/
def segmentMean (buffer : List ℚ) (rq : ℚ) (r : ℕ) : ℚ :=
  if segCnt buffer rq r = 0 then 0
  else segSum buffer rq r / (segCnt buffer rq r : ℚ)

/-- Fuel-indexed form of the `while (offsetResult < newLength)` loop of
`downsampleBuffer` in `useVoiceStream.jsx` (lines 14–24), carrying
`offsetResult` and `offsetBuffer` through the iterations.  Each iteration
computes `nextOffsetBuffer = Math.round((offsetResult + 1) * ratio)`,
averages the input samples with indices in
`[offsetBuffer, min nextOffsetBuffer buffer.length)` (zero when that range
is empty) and moves `offsetBuffer` to `nextOffsetBuffer`. -/
def downsampleLoopAux (buffer : List ℚ) (rq : ℚ) (newLength : ℕ) :
    ℕ → ℕ → ℕ → List ℚ
  | 0, _, _ => []
  | fuel + 1, offsetResult, offsetBuffer =>
    if offsetResult < newLength then
      (if min (segLo rq (offsetResult + 1)) buffer.length - offsetBuffer = 0 then 0
       else ((List.range' offsetBuffer
              (min (segLo rq (offsetResult + 1)) buffer.length - offsetBuffer)).map
              (fun i => buffer.getD i 0)).sum /
            ((min (segLo rq (offsetResult + 1)) buffer.length - offsetBuffer : ℕ) : ℚ)) ::
      downsampleLoopAux buffer rq newLength fuel (offsetResult + 1)
        (segLo rq (offsetResult + 1))
    else []

/-- `downsampleBuffer(buffer, sampleRate, outRate)` from
`useVoiceStream.jsx` (lines 7–26): identity when `outRate === sampleRate`,
otherwise `ratio = sampleRate / outRate`,
`newLength = Math.round(buffer.length / ratio)` and the averaging loop.
The loop runs exactly `newLength` iterations, so `newLength` fuel always
suffices; `offsetBuffer` starts at `0 = Math.round(0 * ratio)`.  The model
takes offsets as naturals, which agrees with the code whenever the rates
are positive (the only case the calling code exercises). -/
def downsampleBuffer (buffer : List ℚ) (sampleRate outRate : ℚ) : List ℚ :=
  if outRate = sampleRate then buffer
  else
    downsampleLoopAux buffer (sampleRate / outRate)
      ((jsRound ((buffer.length : ℚ) / (sampleRate / outRate))).toNat)
      ((jsRound ((buffer.length : ℚ) / (sampleRate / outRate))).toNat) 0 0

lemma segLo_zero (rq : ℚ) : segLo rq 0 = 0 := by
  simp [segLo, jsRound]
  norm_num

lemma downsampleLoopAux_spec (buffer : List ℚ) (rq : ℚ) (newLength : ℕ) :
    ∀ fuel r, newLength - r ≤ fuel →
      downsampleLoopAux buffer rq newLength fuel r (segLo rq r) =
        (List.range' r (newLength - r)).map (segmentMean buffer rq) := by
  intro fuel
  induction fuel with
  | zero =>
    intro r h
    rw [Nat.le_zero.mp h]
    simp [downsampleLoopAux]
  | succ n ih =>
    intro r h
    by_cases hr : r < newLength
    · have hrange : newLength - r = (newLength - (r + 1)) + 1 := by omega
      rw [hrange, List.range'_succ]
      simp only [downsampleLoopAux, if_pos hr, List.map_cons]
      rw [ih (r + 1) (by omega)]
      congr 1
    · simp [downsampleLoopAux, if_neg hr, Nat.sub_eq_zero_of_le (not_lt.mp hr)]

/-- Modelled from the spec: the backend's `FeatureSet` (§3 of the design
document) — per-window mean/variance of RMS loudness, mean/variance of
estimated pitch, silence ratio, estimated speech rate, spectral-centroid
mean/variance and zero-crossing-rate mean/variance.  The backend source
(`app/audio/ml/features.py`) is not in the repository snapshot. -/
structure FeatureSet where
  rmsMean : ℚ
  rmsVar : ℚ
  pitchMean : ℚ
  pitchVar : ℚ
  silenceRatio : ℚ
  speechRate : ℚ
  centroidMean : ℚ
  centroidVar : ℚ
  zcrMean : ℚ
  zcrVar : ℚ

/-- Clamp a value into `[lo, hi]`. -/
def clampQ (lo hi x : ℚ) : ℚ := max lo (min hi x)

lemma clampQ_bounds {lo hi : ℚ} (h : lo ≤ hi) (x : ℚ) :
    lo ≤ clampQ lo hi x ∧ clampQ lo hi x ≤ hi :=
  ⟨le_max_left _ _, max_le h (min_le_left _ _)⟩

/-- Modelled from the spec: Phase 1 scoring (§4.5) — "loudness only —
monotonic mapping from mean RMS (clamped to an expected dynamic range) to
[0,100]"; the dynamic range is taken as `[0, 10000]` on the int16 RMS scale.
The backend source (`app/audio/ml/confidence.py`) is not in the repository
snapshot. -/
def scorePhase1 (f : FeatureSet) : ℚ := clampQ 0 10000 f.rmsMean * 100 / 10000

/-- Modelled from the spec: pitch-stability component of Phase 2 — "inverse
of pitch variance", normalised into `(0, 100]`. -/
def pitchStability (f : FeatureSet) : ℚ := 100 / (1 + max 0 f.pitchVar)

/-- Modelled from the spec: silence component of Phase 2 — "silence ratio
(penalizing high silence)", in `[0, 100]`. -/
def silenceComponent (f : FeatureSet) : ℚ := 100 * (1 - clampQ 0 1 f.silenceRatio)

/-- Modelled from the spec: speech-rate component of Phase 2 — "speech rate
(penalizing extremes)", as distance from a nominal rate of 4 transitions per
second, in `[0, 100]`. -/
def speechRateComponent (f : FeatureSet) : ℚ :=
  100 * (1 - clampQ 0 1 (|f.speechRate - 4| / 4))

/-- Modelled from the spec: Phase 2 scoring (§4.5) — "weighted combination
of loudness, pitch stability, silence ratio, and speech rate; weights sum to
1 and are fixed constants". -/
def scorePhase2 (f : FeatureSet) : ℚ :=
  2 / 5 * scorePhase1 f + 1 / 5 * pitchStability f +
  1 / 5 * silenceComponent f + 1 / 5 * speechRateComponent f

/-- Modelled from the spec: bounded spectral-centroid adjustment of
Phase 3 — "a bounded additive/subtractive adjustment", here within `[-5, 5]`
around a nominal centroid of 2000 Hz. -/
def centroidAdjust (f : FeatureSet) : ℚ := clampQ (-5) 5 ((f.centroidMean - 2000) / 400)

/-- Modelled from the spec: bounded zero-crossing-rate adjustment of
Phase 3, within `[-5, 5]` around a nominal ZCR of 0.1. -/
def zcrAdjust (f : FeatureSet) : ℚ := clampQ (-5) 5 ((1 / 10 - f.zcrMean) * 50)

/-- Modelled from the spec: Phase 3 scoring (§4.5) — "Phase 2 features plus
spectral centroid and zero-crossing-rate terms, each contributing a bounded
additive/subtractive adjustment; output is rounded to an integer", kept in
`[0, 100]`. -/
def scorePhase3 (f : FeatureSet) : ℚ :=
  ((jsRound (clampQ 0 100 (scorePhase2 f + centroidAdjust f + zcrAdjust f)) : ℤ) : ℚ)

/-- Modelled from the spec: `score(FeatureSet, phase)` (§4.5) dispatching on
the configured phase 1, 2 or 3. -/
def score (f : FeatureSet) (phase : ℕ) : ℚ :=
  match phase with
  | 1 => scorePhase1 f
  | 2 => scorePhase2 f
  | 3 => scorePhase3 f
  | _ => scorePhase1 f

lemma scorePhase1_bounds (f : FeatureSet) : 0 ≤ scorePhase1 f ∧ scorePhase1 f ≤ 100 := by
  obtain ⟨h1, h2⟩ := clampQ_bounds (by norm_num : (0 : ℚ) ≤ 10000) f.rmsMean
  unfold scorePhase1
  constructor
  · positivity
  · rw [div_le_iff₀ (by norm_num : (0:ℚ) < 10000)]
    nlinarith

lemma pitchStability_bounds (f : FeatureSet) :
    0 ≤ pitchStability f ∧ pitchStability f ≤ 100 := by
  have hd : (1 : ℚ) ≤ 1 + max 0 f.pitchVar := by
    have := le_max_left (0 : ℚ) f.pitchVar
    linarith
  unfold pitchStability
  constructor
  · positivity
  · rw [div_le_iff₀ (by linarith)]
    nlinarith

lemma silenceComponent_bounds (f : FeatureSet) :
    0 ≤ silenceComponent f ∧ silenceComponent f ≤ 100 := by
  obtain ⟨h1, h2⟩ := clampQ_bounds (by norm_num : (0 : ℚ) ≤ 1) f.silenceRatio
  unfold silenceComponent
  constructor <;> nlinarith

lemma speechRateComponent_bounds (f : FeatureSet) :
    0 ≤ speechRateComponent f ∧ speechRateComponent f ≤ 100 := by
  obtain ⟨h1, h2⟩ := clampQ_bounds (by norm_num : (0 : ℚ) ≤ 1) (|f.speechRate - 4| / 4)
  unfold speechRateComponent
  constructor <;> nlinarith

lemma scorePhase2_bounds (f : FeatureSet) : 0 ≤ scorePhase2 f ∧ scorePhase2 f ≤ 100 := by
  obtain ⟨a1, a2⟩ := scorePhase1_bounds f
  obtain ⟨b1, b2⟩ := pitchStability_bounds f
  obtain ⟨c1, c2⟩ := silenceComponent_bounds f
  obtain ⟨d1, d2⟩ := speechRateComponent_bounds f
  unfold scorePhase2
  constructor <;> nlinarith

lemma jsRound_mem {q lo hi : ℚ} (h1 : lo ≤ q) (h2 : q ≤ hi) :
    lo - 1 / 2 ≤ ((jsRound q : ℤ) : ℚ) ∧ ((jsRound q : ℤ) : ℚ) ≤ hi + 1 / 2 := by
  unfold jsRound
  constructor
  · have hf : q + 1 / 2 - 1 < (⌊q + 1 / 2⌋ : ℚ) := Int.sub_one_lt_floor _
    linarith
  · have hf : (⌊q + 1 / 2⌋ : ℚ) ≤ q + 1 / 2 := Int.floor_le _
    linarith

lemma scorePhase3_bounds (f : FeatureSet) : 0 ≤ scorePhase3 f ∧ scorePhase3 f ≤ 100 := by
  obtain ⟨h1, h2⟩ := clampQ_bounds (by norm_num : (0 : ℚ) ≤ 100)
    (scorePhase2 f + centroidAdjust f + zcrAdjust f)
  unfold scorePhase3
  set q := clampQ 0 100 (scorePhase2 f + centroidAdjust f + zcrAdjust f)
  have hlow : (0 : ℤ) ≤ jsRound q := by
    unfold jsRound
    exact Int.floor_nonneg.mpr (by linarith)
  have hhigh : jsRound q ≤ 100 := by
    unfold jsRound
    have : (⌊q + 1 / 2⌋ : ℚ) ≤ q + 1 / 2 := Int.floor_le _
    have h100 : (⌊q + 1 / 2⌋ : ℚ) ≤ 100 + 1 / 2 := by linarith
    by_contra hc
    push_neg at hc
    have : (101 : ℚ) ≤ (⌊q + 1 / 2⌋ : ℚ) := by exact_mod_cast hc
    linarith
  exact ⟨by exact_mod_cast hlow, by exact_mod_cast hhigh⟩

/-- Modelled from the spec: `smooth_confidence` (§4.5) — exponential moving
average `smoothed = α·raw + (1-α)·prior_smoothed`.  The backend source
(`app/audio/ml/confidence.py`) is not in the repository snapshot. -/
def smooth (alpha raw prior : ℚ) : ℚ := alpha * raw + (1 - alpha) * prior

/-- Run the smoother over a stream of raw scores starting from smoothing
state `first`. -/
def smoothRun (alpha first : ℚ) (raws : List ℚ) : ℚ :=
  raws.foldl (fun st r => smooth alpha r st) first

/-- Modelled from the spec: the per-stream smoothing state is "initialized
to the first raw score for a stream (no smoothing lag on the first frame)";
`processRaws` returns the smoothed score after a whole stream of raw scores,
or `none` for an empty stream. -/
def processRaws (alpha : ℚ) : List ℚ → Option ℚ
  | [] => none
  | r :: rs => some (smoothRun alpha r rs)

lemma smoothRun_const (alpha r : ℚ) : ∀ n : ℕ, smoothRun alpha r (List.replicate n r) = r := by
  intro n
  induction n with
  | zero => rfl
  | succ m ih =>
    rw [List.replicate_succ]
    show smoothRun alpha (smooth alpha r r) (List.replicate m r) = r
    have hs : smooth alpha r r = r := by unfold smooth; ring
    rw [hs, ih]

/-- C1: every frame emitted by the accumulator of `processor.onaudioprocess`
has exactly `SAMPLE_RATE × 20 / 1000 = FRAME_SAMPLES = 320` samples, and for
every sequence of input chunks the trailing run of fewer than 320 accumulated
samples stays in the accumulator and is never emitted as a frame. -/
theorem frame_accumulator_emits_exact_frames (chunks : List (List ℚ)) :
    FRAME_SAMPLES = SAMPLE_RATE * 20 / 1000 ∧
    (∀ f ∈ (processChunks chunks).1, f.length = FRAME_SAMPLES) ∧
    (processChunks chunks).2.length < FRAME_SAMPLES := by
  have h := processChunks_invariant chunks [] [] (by intro f hf; simp at hf) (by decide)
  exact ⟨by decide, h.1, h.2⟩

set_option maxRecDepth 100000 in
theorem frame_accumulator_emits_exact_frames_witness :
    (List.replicate 320 (0 : ℚ)).length = FRAME_SAMPLES ∧
    (processChunks [List.replicate 321 (0 : ℚ)]).2.length < FRAME_SAMPLES :=
  ⟨(frame_accumulator_emits_exact_frames [List.replicate 321 (0 : ℚ)]).2.1
      (List.replicate 320 (0 : ℚ)) (by decide),
   (frame_accumulator_emits_exact_frames [List.replicate 321 (0 : ℚ)]).2.2⟩

/-- C2: for every sequence of variable-sized input chunks, the concatenation
of all emitted frames followed by the trailing accumulator content equals the
concatenation of all input samples — so the emitted frames are a prefix of
the input stream, in arrival order, with no sample reordered or dropped. -/
theorem frame_accumulator_preserves_order (chunks : List (List ℚ)) :
    (processChunks chunks).1.flatten ++ (processChunks chunks).2 = chunks.flatten := by
  have h := processChunks_join chunks [] []
  simpa [processChunks] using h

/-- C4: the float-to-int16 sample conversion clips rather than overflows:
every output sample lies in `[-32768, 32767]`, inputs at or below `-1` map to
`-32768`, and inputs at or above `1` map to `32767`. -/
theorem floatToInt16_clips (x : ℚ) :
    (-32768 ≤ floatToInt16Sample x ∧ floatToInt16Sample x ≤ 32767) ∧
    (x ≤ -1 → floatToInt16Sample x = -32768) ∧
    (1 ≤ x → floatToInt16Sample x = 32767) := by
  refine ⟨floatToInt16Sample_bounds x, ?_, ?_⟩
  · intro hx
    have hmin : min 1 x = x := min_eq_right (le_trans hx (by norm_num))
    have hmax : max (-1 : ℚ) x = -1 := max_eq_left hx
    have hj : jsTrunc ((-1 : ℚ) * 32768) = -32768 := by
      unfold jsTrunc
      rw [if_pos (by norm_num),
        show ((-1 : ℚ) * 32768) = ((-32768 : ℤ) : ℚ) by norm_num, Int.ceil_intCast]
    unfold floatToInt16Sample
    rw [hmin, hmax, if_pos (by norm_num : (-1 : ℚ) < 0), hj]
    decide
  · intro hx
    have hmin : min 1 x = 1 := min_eq_left hx
    have hj : jsTrunc ((1 : ℚ) * 32767) = 32767 := by
      unfold jsTrunc
      rw [if_neg (by norm_num),
        show ((1 : ℚ) * 32767) = ((32767 : ℤ) : ℚ) by norm_num, Int.floor_intCast]
    unfold floatToInt16Sample
    rw [hmin, max_eq_right (by norm_num : (-1 : ℚ) ≤ 1),
      if_neg (by norm_num : ¬ (1 : ℚ) < 0), hj]
    decide

theorem floatToInt16_clips_witness :
    floatToInt16Sample (-2) = -32768 ∧ floatToInt16Sample 2 = 32767 :=
  ⟨(floatToInt16_clips (-2)).2.1 (by norm_num),
   (floatToInt16_clips 2).2.2 (by norm_num)⟩

/-- C8 counterexample: the int16 → float32 → int16 round trip is not the
identity — the sample `1` comes back as `0` (positive samples lose one unit
because the positive branch scales by `0x7fff` while the float decoding
divides by `0x8000`). -/
theorem int16_roundtrip_not_identity :
    floatToInt16 (int16ToFloat32 [(1 : ℤ)]) ≠ [(1 : ℤ)] := by
  have h : floatToInt16Sample (int16ToFloat32Sample 1) = 0 := by
    have hr := roundTripSample 1 (by norm_num) (by norm_num)
    simpa using hr
  simp [floatToInt16, int16ToFloat32, h]

/-- C8 (amended): for every int16 sample buffer, converting to float with
`int16ToFloat32` and back with `floatToInt16` decrements every positive
sample by one and fixes every non-positive sample. -/
theorem int16_roundtrip_characterization (xs : List ℤ)
    (h : ∀ x ∈ xs, -32768 ≤ x ∧ x ≤ 32767) :
    floatToInt16 (int16ToFloat32 xs) = xs.map (fun x => if 0 < x then x - 1 else x) := by
  unfold floatToInt16 int16ToFloat32
  rw [List.map_map]
  apply List.map_congr_left
  intro x hx
  exact roundTripSample x (h x hx).1 (h x hx).2

theorem int16_roundtrip_characterization_witness :
    floatToInt16 (int16ToFloat32 [(5 : ℤ), -7, 0]) = [(4 : ℤ), -7, 0] := by
  have h := int16_roundtrip_characterization [(5 : ℤ), -7, 0] (by decide)
  simpa using h

/-- C5: the playback queue is FIFO.  One `scheduleLoop` pass dequeues a
prefix of the receive queue and schedules exactly its non-empty chunks, in
order; iterating the pass until the queue is empty schedules precisely the
non-empty chunks of the whole queue, in arrival order, with nothing else
skipped and nothing duplicated. -/
theorem playback_queue_fifo (queue : List (List ℤ)) :
    (∃ k, (scheduleLoop queue).1 = (queue.take k).filter (fun c => !c.isEmpty) ∧
      (scheduleLoop queue).2 = queue.drop k) ∧
    drainQueue queue = queue.filter (fun c => !c.isEmpty) := by
  constructor
  · obtain ⟨k, h1, h2, _⟩ := scheduleLoopAux_spec queue 0
    exact ⟨k, h1, h2⟩
  · exact drainAux_spec queue.length queue le_rfl

/-- C7: after `stop()` on any hook state — whatever state the stream was in —
the WebSocket, script-processor, audio-source, media-stream and audio-context
references are all null, the playing flag is false and the status is
`"idle"`. -/
theorem stop_releases_resources (s : HookState) :
    (stop s).ws = none ∧ (stop s).proc = none ∧ (stop s).source = none ∧
    (stop s).stream = none ∧ (stop s).ctx = none ∧
    (stop s).isPlaying = false ∧ (stop s).status = "idle" := by
  refine ⟨rfl, rfl, rfl, rfl, rfl, rfl, rfl⟩

set_option maxHeartbeats 1000000 in
/-- C9: for a buffer of `n` int16 samples, `pcm16ToWavBlob` produces a blob
of exactly `44 + 2·n` bytes; its header records a data-chunk size of `2·n`
bytes (offset 40), a byte rate of `sampleRate × numChannels × 2` (offset 28)
and 16 bits per sample (offset 34); and the data section from offset 44 is
the samples little-endian, in order. -/
theorem pcm16ToWavBlob_layout (pcm16 : List ℤ) (sampleRate numChannels : ℕ) :
    (pcm16ToWavBlob pcm16 sampleRate numChannels).length = 44 + 2 * pcm16.length ∧
    ((pcm16ToWavBlob pcm16 sampleRate numChannels).drop 40).take 4 =
      u32le (pcm16.length * 2) ∧
    ((pcm16ToWavBlob pcm16 sampleRate numChannels).drop 28).take 4 =
      u32le (sampleRate * (numChannels * 2)) ∧
    ((pcm16ToWavBlob pcm16 sampleRate numChannels).drop 34).take 2 = u16le 16 ∧
    (pcm16ToWavBlob pcm16 sampleRate numChannels).drop 44 = (pcm16.map i16le).flatten := by
  refine ⟨?_, rfl, rfl, rfl, rfl⟩
  simp only [pcm16ToWavBlob, List.length_append, i16le_flatten_length,
    asciiBytes, u32le, u16le, List.length_map, List.length_cons, List.length_nil]

/-- C10: `downsampleBuffer` returns its input unchanged when
`outRate = sampleRate`; otherwise (for positive rates) it returns exactly
`Math.round(length × outRate / sampleRate)` samples, the `r`-th being the
arithmetic mean of its segment of input samples — indices
`[round(r·ratio), min(round((r+1)·ratio), length))` with
`ratio = sampleRate / outRate` — and `0` when that segment is empty. -/
theorem downsampleBuffer_correct (buffer : List ℚ) (sampleRate outRate : ℚ) :
    (outRate = sampleRate → downsampleBuffer buffer sampleRate outRate = buffer) ∧
    (outRate ≠ sampleRate → 0 < sampleRate → 0 < outRate →
      downsampleBuffer buffer sampleRate outRate =
        (List.range ((jsRound ((buffer.length : ℚ) * outRate / sampleRate)).toNat)).map
          (segmentMean buffer (sampleRate / outRate)) ∧
      (downsampleBuffer buffer sampleRate outRate).length =
        (jsRound ((buffer.length : ℚ) * outRate / sampleRate)).toNat) := by
  constructor
  · intro h
    simp [downsampleBuffer, h]
  · intro hne _ _
    have hdiv : (buffer.length : ℚ) / (sampleRate / outRate) =
        (buffer.length : ℚ) * outRate / sampleRate := div_div_eq_mul_div _ _ _
    have hmain : downsampleBuffer buffer sampleRate outRate =
        (List.range ((jsRound ((buffer.length : ℚ) * outRate / sampleRate)).toNat)).map
          (segmentMean buffer (sampleRate / outRate)) := by
      have hspec := downsampleLoopAux_spec buffer (sampleRate / outRate)
        ((jsRound ((buffer.length : ℚ) / (sampleRate / outRate))).toNat)
        ((jsRound ((buffer.length : ℚ) / (sampleRate / outRate))).toNat) 0 (by omega)
      rw [segLo_zero] at hspec
      rw [downsampleBuffer, if_neg hne, hspec, Nat.sub_zero, ← List.range_eq_range', hdiv]
    exact ⟨hmain, by rw [hmain]; simp⟩

theorem downsampleBuffer_correct_witness :
    (2 : ℚ) ≠ 4 ∧
    downsampleBuffer [(1 : ℚ), 3] 4 2 =
      (List.range ((jsRound ((([(1 : ℚ), 3].length : ℕ) : ℚ) * 2 / 4)).toNat)).map
        (segmentMean [(1 : ℚ), 3] (4 / 2)) :=
  ⟨by norm_num,
   ((downsampleBuffer_correct [(1 : ℚ), 3] 4 2).2 (by norm_num) (by norm_num)
     (by norm_num)).1⟩

/-- C3 (the backend scorer is modelled from the spec, §4.5): for every
FeatureSet and for each of the phases 1, 2 and 3, the raw confidence score
`score(FeatureSet, phase)` lies in the closed interval `[0, 100]`. -/
theorem score_in_range (f : FeatureSet) (phase : ℕ)
    (h : phase = 1 ∨ phase = 2 ∨ phase = 3) :
    0 ≤ score f phase ∧ score f phase ≤ 100 := by
  rcases h with h | h | h <;> subst h
  · exact scorePhase1_bounds f
  · exact scorePhase2_bounds f
  · exact scorePhase3_bounds f

theorem score_in_range_witness :
    0 ≤ score ⟨0, 0, 0, 0, 0, 0, 0, 0, 0, 0⟩ 2 ∧
    score ⟨0, 0, 0, 0, 0, 0, 0, 0, 0, 0⟩ 2 ≤ 100 :=
  score_in_range ⟨0, 0, 0, 0, 0, 0, 0, 0, 0, 0⟩ 2 (Or.inr (Or.inl rfl))

/-- C6 (the backend smoother is modelled from the spec, §4.5): smoothing
computes `α·raw + (1-α)·prior_smoothed`, the state is initialized to the
first raw score of a stream, under a constant raw-score stream the smoothed
value equals the raw score from the first application on, and (for `α` and
inputs in range) the smoothed value never leaves `[0, 100]`. -/
theorem smoothing_ema (alpha raw prior : ℚ) (n : ℕ) :
    smooth alpha raw prior = alpha * raw + (1 - alpha) * prior ∧
    processRaws alpha (raw :: List.replicate n raw) = some raw ∧
    (0 ≤ alpha → alpha ≤ 1 → 0 ≤ raw → raw ≤ 100 → 0 ≤ prior → prior ≤ 100 →
      0 ≤ smooth alpha raw prior ∧ smooth alpha raw prior ≤ 100) := by
  refine ⟨rfl, ?_, ?_⟩
  · show some (smoothRun alpha raw (List.replicate n raw)) = some raw
    rw [smoothRun_const alpha raw n]
  · intro h1 h2 h3 h4 h5 h6
    unfold smooth
    constructor <;> nlinarith

theorem smoothing_ema_witness :
    0 ≤ smooth (7 / 10) 50 20 ∧ smooth (7 / 10) 50 20 ≤ 100 :=
  (smoothing_ema (7 / 10) 50 20 2).2.2 (by norm_num) (by norm_num) (by norm_num)
    (by norm_num) (by norm_num) (by norm_num)

end VocalFlow
